import Mathlib

/-!
Verification of the EmergencyPlanner scheduling engine (`task.py`).

Modelling conventions:
* Instants (`datetime`) are integers counting minutes, with minute 0 at
  midnight of a Monday; durations (`timedelta`) that interact with the
  calendar are integer minutes.  The configured work calendar uses whole
  minutes only, so the backward walk is modelled at minute granularity.
* `date.weekday()` is `wdayOf` (0 = Monday, as in Python), the time of day
  is `timeOf`.
* Quantities that Python computes with `float` or exact `timedelta`
  division (priorities, percentages, hour totals) are modelled as `ℚ`.
* Python exceptions are modelled by `Option`/`Except`: a raised exception
  is `none` / `Except.error`.
-/

namespace EmergencyPlanner

/-- One work period of the weekly cycle: day of week, start and end time of
day (minutes from midnight), and the elapsed time (minutes, work and
non-work) back to the end of the previous period in cycle order.  Mirrors
class `WorkPeriode` (`wday`, `starttime`, `endtime`, `dt_prev`, the latter
given in hours in the source and stored as a `timedelta`). -/
structure WorkPeriode where
  wday : Int
  starttime : Int
  endtime : Int
  dt_prev : Int
deriving DecidableEq

/-- The fixed weekly cycle from `Calendar.__init__` (times in minutes,
`dt_prev` converted from hours to minutes):
Mon 9:00-12:00 (64h back), Mon 13:00-18:00 (1h), Tue 9:00-12:00 (15h),
Tue 14:00-18:00 (2h), Wed 9:00-12:00 (15h), Wed 13:00-18:00 (1h),
Thu 9:00-12:00 (15h), Thu 13:00-19:00 (1h), Fri 9:00-12:00 (14h),
Fri 13:00-17:00 (1h). -/
def periodes : List WorkPeriode :=
  [⟨0, 540, 720, 3840⟩, ⟨0, 780, 1080, 60⟩,
   ⟨1, 540, 720, 900⟩, ⟨1, 840, 1080, 120⟩,
   ⟨2, 540, 720, 900⟩, ⟨2, 780, 1080, 60⟩,
   ⟨3, 540, 720, 900⟩, ⟨3, 780, 1140, 60⟩,
   ⟨4, 540, 720, 840⟩, ⟨4, 780, 1020, 60⟩]

/-- Index into the weekly cycle (the source indexes `self.periodes[i]`). -/
def getPer (i : Nat) : WorkPeriode := periodes.getD i ⟨0, 0, 0, 0⟩

/-- `dt.weekday()` for an instant in minutes (0 = Monday). -/
def wdayOf (t : Int) : Int := Int.emod (Int.ediv t 1440) 7

/-- `dt.time()` for an instant in minutes: minutes since midnight. -/
def timeOf (t : Int) : Int := Int.emod t 1440

/-- `WorkPeriode.is_in_peride`: the instant's weekday matches and its time
of day lies in `[starttime, endtime]` (both ends inclusive, as in the
source's chained comparison). -/
def is_in_peride (p : WorkPeriode) (dt : Int) : Bool :=
  p.wday == wdayOf dt && decide (p.starttime ≤ timeOf dt) && decide (timeOf dt ≤ p.endtime)

/-- The scan over `enumerate(self.periodes)` in `compute_startdate` that
finds the first period containing the instant (`self.current = i`). -/
def locate (t : Int) : Option Nat :=
  (List.range 10).find? fun i => is_in_peride (getPer i) t

/-- `datetime.combine(start.date(), self.periodes[current].starttime)`:
midnight of `start`'s day plus the period's start time. -/
def daystartOf (current : Nat) (start : Int) : Int :=
  start - timeOf start + (getPer current).starttime

/-- The `while duration > timedelta(0)` loop of `Calendar.compute_startdate`,
with an explicit fuel parameter for termination.  Each iteration computes
`remainingtime = start - datetime.combine(start.date(), ...starttime)`;
if `remainingtime > duration` the task fits in the current period,
otherwise the walk moves to the start of the period, additionally crosses
the `dt_prev` gap when duration remains, and steps `current` back one
period (wrapping), exactly as the source. -/
def computeAux : Nat → Int → Int → Nat → Option Int
  | 0, _, _, _ => none
  | fuel + 1, start, duration, current =>
    if duration ≤ 0 then some start
    else
      if duration < start - daystartOf current start then
        some (start - duration)
      else
        computeAux fuel
          (if duration - (start - daystartOf current start) = 0 then
            start - (start - daystartOf current start)
          else
            start - (start - daystartOf current start) - (getPer current).dt_prev)
          (duration - (start - daystartOf current start))
          ((current + 9) % 10)

/-- `Calendar.compute_startdate(end, duration)`: locate the period holding
`end` (raising -- `none` -- if none contains it), then walk backward.
The fuel `duration.toNat + 2` is enough for the loop to finish (proved in
`computeAux_ok`). -/
def compute_startdate (e d : Int) : Option Int :=
  match locate e with
  | none => none
  | some i => computeAux (d.toNat + 2) e d i

/-- A minute `[t, t+1)` counts as work time when it lies inside some work
period (half-open at the period's end, so that exactly
`endtime - starttime` minutes of each period count). -/
def inWorkMinute (t : Int) : Bool :=
  periodes.any fun p =>
    p.wday == wdayOf t && decide (p.starttime ≤ timeOf t) && decide (timeOf t < p.endtime)

/-- Work time elapsed between two instants: the number of minutes in
`[s, e)` that fall inside some configured work period. -/
def workTime (s e : Int) : Nat :=
  (List.range (e - s).toNat).countP fun k : Nat => inWorkMinute (s + (k : Int))

/- ===== Task: priority and mutation (rational arithmetic) ===== -/

/-- `Task.updatePriority` expressed on the signed time-to-deadline `T` and
the remaining duration `D` (minutes, as rationals).  Python raises
`ZeroDivisionError` when the selected branch divides by zero (`T = 0` in
the `T >= D` branch, `D = 0` in the overdue branch); `none` models the
raise.  In the middle branch the guard `0 < T` excludes a zero
denominator. -/
def updatePriorityQ (T D : ℚ) : Option ℚ :=
  if D ≤ T then
    if T = 0 then none else some (D / T)
  else if 0 < T ∧ T < D then
    some (D / T)
  else
    if D = 0 then none else some ((D - T) / D)

/-- The `Task` record (instants in minutes, durations/percentages as
rationals). -/
structure Task where
  title : String
  description : String
  domain : Option String
  deadLine : Int
  estimatedLength : ℚ
  percentDone : ℚ
  lastingTime : ℚ
  priority : ℚ
  startdate : Int
  enddate : Int
  pause : Bool
deriving DecidableEq

/-- `Task.updateLastingTime`. -/
def updateLastingTime (t : Task) : Task :=
  { t with lastingTime := t.estimatedLength * (100 - t.percentDone) / 100 }

/-- `Task.updatePriority`: `T = self.deadLine - datetime.today()` with the
wall clock passed explicitly; a division failure propagates as `none`. -/
def updatePriorityT (t : Task) (now : Int) : Option Task :=
  match updatePriorityQ ((t.deadLine - now : Int) : ℚ) t.lastingTime with
  | none => none
  | some P => some { t with priority := P }

/-- `Task.updatePercent`: range check (a `ValueError`, modelled `none`,
leaves the task untouched), then the percentage is stored and the derived
attributes recomputed. -/
def updatePercent (t : Task) (now : Int) (newPercent : ℚ) : Option Task :=
  if ¬ (0 ≤ newPercent ∧ newPercent ≤ 100) then none
  else updatePriorityT (updateLastingTime { t with percentDone := newPercent }) now

/- ===== Holidays and the Planning container ===== -/

/-- The attributes a `Holidays` object would carry. -/
structure HolidayRec where
  title : String
  startdate : Int
  enddate : Int
  deadLine : Int
deriving DecidableEq

/-- `date.max` (9999-12-31) as a day ordinal; only its identity matters
here. -/
def dateMax : Int := 3652059

/-- The `datetime.max` far-future sentinel used as the "no deadline"
default, in the minute scale of this model. -/
def datetimeMax : Int := 9999999999

/-- Models `Holidays.__init__`.  After validating the half-day designator
(`ValueError` otherwise) the source evaluates
`cal.periodes.starttime[indday*2]`; `cal.periodes` is a plain Python list,
which has no attribute `starttime`, so the construction raises
`AttributeError` on every call and no `Holidays` object is ever
produced. -/
def holidays_init (title : String) (startday : Int) (starttime : String)
    (endday : Int) (endtime : String) : Except String HolidayRec :=
  if starttime ≠ "AM" ∧ starttime ≠ "PM" then Except.error "ValueError"
  else Except.error "AttributeError"

/-- The `Planning` container: an association list of domain name to task
list (Python dict iteration order is insertion order), the holiday list
and the calendar (the calendar is the fixed `periodes` above).  The task
type is a parameter so that the placement functions (which only read
title/deadline/duration/priority and write the placement stamps) and the
percent-update path can each use their record. -/
structure Planning (α : Type) where
  tasks : List (String × List α)
  holidays : List HolidayRec

/-- `Planning.addHolidays`.  The source passes the literal defaults
`date.max`, `"AM"`, `date.max`, `"PM"` to `Holidays(...)`, ignoring its
own `startday`/`starttime`/`endday`/`endtime` arguments; the constructor's
failure propagates, so nothing is ever appended. -/
def addHolidays {α : Type} (p : Planning α) (title : String) (startday : Int)
    (starttime : String) (endday : Int) (endtime : String) :
    Except String (Planning α) :=
  match holidays_init title dateMax "AM" dateMax "PM" with
  | Except.error err => Except.error err
  | Except.ok holday => Except.ok { p with holidays := p.holidays ++ [holday] }

/-- Python evaluates `taskname in self.tasks[domain]` (and
`...index(taskname)`) by comparing the string against each `Task` object
with `==`; `Task` defines no `__eq__`, so the comparison falls back to
object identity and a `Task` never equals a `str`. -/
def pyEqTaskStr (t : Task) (s : String) : Bool := false

/-- `Planning.updateTask(taskname, domain, newPercent)`.  A missing domain
key raises `KeyError`; the `if not taskname in ...` test only prints a
message and falls through, after which `self.tasks[domain].index(taskname)`
raises `ValueError` whenever the membership test failed (by `pyEqTaskStr`,
always).  `none` models an escaped exception. -/
def updateTask (p : Planning Task) (taskname domain : String) (newPercent : ℚ)
    (now : Int) : Option (Planning Task) :=
  match p.tasks.find? fun kv => kv.1 == domain with
  | none => none
  | some kv =>
    match kv.2.findIdx? fun t => pyEqTaskStr t taskname with
    | none => none
    | some ind =>
      match kv.2[ind]? with
      | none => none
      | some t =>
        (updatePercent t now newPercent).map fun t2 =>
          { p with tasks := p.tasks.map fun kv2 =>
              if kv2.1 == domain then (kv2.1, kv2.2.set ind t2) else kv2 }

/- ===== placement pass and reports ===== -/

/-- The task attributes read and written by the placement, sorting and
greedy-selection paths.  `lastingTime` is in whole minutes here because it
is handed to the minute-scale calendar walk. -/
structure PTask where
  title : String
  deadLine : Int
  lastingTime : Int
  priority : ℚ
  startdate : Int
  enddate : Int
  pause : Bool
deriving DecidableEq

/-- `Task.__lt__`: deadline first (earlier first), then priority
descending, then title ascending. -/
def taskLt (a b : PTask) : Prop :=
  if a.deadLine = b.deadLine then
    if a.priority = b.priority then a.title < b.title
    else b.priority < a.priority
  else a.deadLine < b.deadLine

instance taskLt.decRel : DecidableRel taskLt := fun a b => by
  unfold taskLt
  infer_instance

/-- The non-strict companion of `taskLt`; Python's stable ascending sort
with `__lt__` is modelled by insertion sort with this relation. -/
def taskLe (a b : PTask) : Prop := ¬ taskLt b a

instance taskLe.decRel : DecidableRel taskLe := fun a b => by
  unfold taskLe
  infer_instance

/-- `list.sort()` with `Task.__lt__`: a stable ascending sort. -/
def sortTasks (l : List PTask) : List PTask := List.insertionSort taskLe l

/-- The `full_list` built by `Planning.render_planning` (and identically by
`Planning.sort_priority` without a domain): each domain's list is sorted
in place, the lists are concatenated in dict order, and the concatenation
is sorted again. -/
def full_list (p : Planning PTask) : List PTask :=
  sortTasks ((p.tasks.map fun kv => sortTasks kv.2).flatten)

/-- The `full_list` of `Planning.sort_priority` called without a domain
(lines building the "what's most urgent right now" report); the source
text is identical to the one in `render_planning`. -/
def sort_priority_list (p : Planning PTask) : List PTask :=
  sortTasks ((p.tasks.map fun kv => sortTasks kv.2).flatten)

/-- The task attributes that placement does not rewrite (used to compare
chain entries with the tasks they came from). -/
def core (t : PTask) : String × Int × Int × ℚ :=
  (t.title, t.deadLine, t.lastingTime, t.priority)

/-- The backward-placement loop of `render_planning` over the reversed
(latest-deadline-first) list, threading `start_tmp`: tasks whose deadline
is the sentinel are skipped; otherwise `enddate = min(deadLine, start_tmp)`,
`pause` is set when `deadLine < start_tmp`, the start instant comes from
`compute_startdate`, and the placed task is accumulated with `insert(0, ...)`
(modelled by returning the processing order and reversing at the end).
A `ValueError` from the calendar aborts the pass (`none`). -/
def placeRev : List PTask → Int → Option (List PTask)
  | [], _ => some []
  | t :: rest, start_tmp =>
    if t.deadLine = datetimeMax then placeRev rest start_tmp
    else
      match compute_startdate (min t.deadLine start_tmp) t.lastingTime with
      | none => none
      | some s =>
        match placeRev rest s with
        | none => none
        | some l =>
          some ({ t with
                    enddate := min t.deadLine start_tmp
                    pause := if t.deadLine < start_tmp then true else t.pause
                    startdate := s } :: l)

/-- `Planning.render_planning`'s placement result (`final_list`) in forward
order, or `none` when the pass aborted on a non-work deadline. -/
def render_planning_chain (p : Planning PTask) : Option (List PTask) :=
  match placeRev (full_list p).reverse datetimeMax with
  | none => none
  | some l => some l.reverse

/-- `lastingTime.total_seconds() / 3600`. -/
def hoursOf (t : PTask) : ℚ := (t.lastingTime : ℚ) / 60

/-- Summed remaining-duration hours of a list. -/
def sumHours (l : List PTask) : ℚ := (l.map hoursOf).sum

/-- The `while total_time < remainingTime and len(full_list) > 0` loop at
the end of `Planning.sort_priority`: pop the front, accumulate its
remaining-duration hours. -/
def selectShort : List PTask → ℚ → ℚ → List PTask
  | [], _, _ => []
  | t :: rest, total_time, cap =>
    if total_time < cap then t :: selectShort rest (total_time + hoursOf t) cap
    else []

/-- The short list produced from an ordered list and a capacity (hours
remaining until 18:00 today in the source; a parameter here). -/
def short_list (l : List PTask) (cap : ℚ) : List PTask := selectShort l 0 cap

/- ===== concrete instances used by witnesses and counterexamples ===== -/

/-- A task due Monday 12:00 with one hour of remaining work. -/
def taskW : PTask := ⟨"W", 720, 60, 0, 0, 0, false⟩

def planW : Planning PTask := ⟨[("work", [taskW])], []⟩

/-- A holiday record held directly in a scheduler state. -/
def holidayV : HolidayRec := ⟨"Vacation", 0, 600, 600⟩

def planH : Planning PTask := ⟨[], [holidayV]⟩

/-- A task due Monday 18:00 with half an hour of remaining work. -/
def taskV : PTask := ⟨"V", 1080, 30, 0, 0, 0, false⟩

def planV : Planning PTask := ⟨[("dom", [taskV])], [holidayV]⟩

/-- Higher priority, later deadline. -/
def taskA : PTask := ⟨"A", 2000, 0, 5, 0, 0, false⟩

/-- Lower priority, earlier deadline. -/
def taskB : PTask := ⟨"B", 1000, 0, 1, 0, 0, false⟩

def planAB : Planning PTask := ⟨[("d", [taskA, taskB])], []⟩

def taskC5a : PTask := ⟨"a", 100, 60, 0, 0, 0, false⟩

def taskC5b : PTask := ⟨"b", 200, 120, 0, 0, 0, false⟩

def taskC5c : PTask := ⟨"c", 300, 300, 0, 0, 0, false⟩

def wlist5 : List PTask := [taskC5a, taskC5b, taskC5c]

/-- A task whose deadline equals "now" and whose remaining duration is
zero (100% done): `T = 0` and `D = 0`. -/
def taskC3 : Task := ⟨"report", "", some "w", 100, 0, 100, 0, 0, 0, 100, false⟩

/-- A task for the update-by-name lookup. -/
def taskC9 : Task := ⟨"Report", "", some "work", 2000, 60, 0, 60, 0, 0, 2000, false⟩

def planC9 : Planning Task := ⟨[("work", [taskC9])], []⟩

/-- A task safely away from the degenerate priority cases. -/
def taskC10 : Task := ⟨"w10", "", none, 1000, 120, 0, 120, 0, 0, 1000, false⟩

/- ===== basic facts about the weekly cycle ===== -/

/-- Every instant decomposes uniquely as whole weeks + weekday + time of
day. -/
lemma week_decomp (t : Int) : ∃ Q : Int,
    t = 10080 * Q + 1440 * wdayOf t + timeOf t ∧
    0 ≤ wdayOf t ∧ wdayOf t < 7 ∧ 0 ≤ timeOf t ∧ timeOf t < 1440 := by
  unfold wdayOf timeOf
  refine ⟨Int.ediv (Int.ediv t 1440) 7, ?_, Int.emod_nonneg _ (by norm_num),
    Int.emod_lt_of_pos _ (by norm_num), Int.emod_nonneg _ (by norm_num),
    Int.emod_lt_of_pos _ (by norm_num)⟩
  have h1 : 1440 * Int.ediv t 1440 + Int.emod t 1440 = t := Int.ediv_add_emod t 1440
  have h2 : 7 * Int.ediv (Int.ediv t 1440) 7 + Int.emod (Int.ediv t 1440) 7 =
      Int.ediv t 1440 := Int.ediv_add_emod _ 7
  omega

lemma getPer_mem : ∀ i, i < 10 → getPer i ∈ periodes := by decide

lemma getPer0 : getPer 0 = ⟨0, 540, 720, 3840⟩ := rfl

lemma getPer1 : getPer 1 = ⟨0, 780, 1080, 60⟩ := rfl

lemma getPer2 : getPer 2 = ⟨1, 540, 720, 900⟩ := rfl

lemma getPer3 : getPer 3 = ⟨1, 840, 1080, 120⟩ := rfl

lemma getPer4 : getPer 4 = ⟨2, 540, 720, 900⟩ := rfl

lemma getPer5 : getPer 5 = ⟨2, 780, 1080, 60⟩ := rfl

lemma getPer6 : getPer 6 = ⟨3, 540, 720, 900⟩ := rfl

lemma getPer7 : getPer 7 = ⟨3, 780, 1140, 60⟩ := rfl

lemma getPer8 : getPer 8 = ⟨4, 540, 720, 840⟩ := rfl

lemma getPer9 : getPer 9 = ⟨4, 780, 1020, 60⟩ := rfl

lemma getPerP0 : getPer ((0 + 9) % 10) = ⟨4, 780, 1020, 60⟩ := rfl

lemma getPerP1 : getPer ((1 + 9) % 10) = ⟨0, 540, 720, 3840⟩ := rfl

lemma getPerP2 : getPer ((2 + 9) % 10) = ⟨0, 780, 1080, 60⟩ := rfl

lemma getPerP3 : getPer ((3 + 9) % 10) = ⟨1, 540, 720, 900⟩ := rfl

lemma getPerP4 : getPer ((4 + 9) % 10) = ⟨1, 840, 1080, 120⟩ := rfl

lemma getPerP5 : getPer ((5 + 9) % 10) = ⟨2, 540, 720, 900⟩ := rfl

lemma getPerP6 : getPer ((6 + 9) % 10) = ⟨2, 780, 1080, 60⟩ := rfl

lemma getPerP7 : getPer ((7 + 9) % 10) = ⟨3, 540, 720, 900⟩ := rfl

lemma getPerP8 : getPer ((8 + 9) % 10) = ⟨3, 780, 1140, 60⟩ := rfl

lemma getPerP9 : getPer ((9 + 9) % 10) = ⟨4, 540, 720, 840⟩ := rfl

lemma periodes_bounds : ∀ i, i < 10 →
    0 ≤ (getPer i).wday ∧ (getPer i).wday < 7 ∧
    0 ≤ (getPer i).starttime ∧ (getPer i).starttime < (getPer i).endtime ∧
    (getPer i).endtime < 1440 ∧ 0 < (getPer i).dt_prev := by decide

lemma inWork_iff (t : Int) : inWorkMinute t = true ↔
    ∃ p ∈ periodes, p.wday = wdayOf t ∧ p.starttime ≤ timeOf t ∧ timeOf t < p.endtime := by
  simp [inWorkMinute, List.any_eq_true, Bool.and_eq_true, beq_iff_eq, decide_eq_true_eq,
    and_assoc]

/-- Any minute of the current period strictly before an in-period instant
is a work minute. -/
lemma inWork_span (i : Nat) (hi : i < 10) (e t : Int)
    (hw : wdayOf e = (getPer i).wday)
    (h1 : (getPer i).starttime ≤ timeOf e) (h2 : timeOf e ≤ (getPer i).endtime)
    (ht1 : e - (timeOf e - (getPer i).starttime) ≤ t) (ht2 : t < e) :
    inWorkMinute t = true := by
  obtain ⟨Q, hQ, hQ1, hQ2, hQ3, hQ4⟩ := week_decomp e
  obtain ⟨R, hR, hR1, hR2, hR3, hR4⟩ := week_decomp t
  have hb := periodes_bounds i hi
  rw [inWork_iff]
  exact ⟨getPer i, getPer_mem i hi, by omega, by omega, by omega⟩

/-- Stepping back over a period's `dt_prev` gap from the period's start
lands exactly at the end time of the previous period in cycle order, and
no minute inside the gap is work time.  This is the consistency of the
configured `dt_prev` values with the cycle. -/
lemma step_target (i : Nat) (hi : i < 10) (b : Int)
    (hw : wdayOf b = (getPer i).wday) (hτ : timeOf b = (getPer i).starttime) :
    (wdayOf (b - (getPer i).dt_prev) = (getPer ((i + 9) % 10)).wday ∧
     timeOf (b - (getPer i).dt_prev) = (getPer ((i + 9) % 10)).endtime) ∧
    ∀ t, b - (getPer i).dt_prev ≤ t → t < b → inWorkMinute t = false := by
  obtain ⟨Q, hQ, hQ1, hQ2, hQ3, hQ4⟩ := week_decomp b
  constructor
  · obtain ⟨R, hR, hR1, hR2, hR3, hR4⟩ := week_decomp (b - (getPer i).dt_prev)
    interval_cases i <;>
      simp only [getPer0, getPer1, getPer2, getPer3, getPer4, getPer5, getPer6,
        getPer7, getPer8, getPer9, getPerP0, getPerP1, getPerP2, getPerP3, getPerP4,
        getPerP5, getPerP6, getPerP7, getPerP8, getPerP9] at * <;>
      constructor <;> omega
  · intro t hlo hhi
    obtain ⟨R, hR, hR1, hR2, hR3, hR4⟩ := week_decomp t
    rw [Bool.eq_false_iff]
    intro hcontra
    rw [inWork_iff] at hcontra
    obtain ⟨x, hx, hx1, hx2, hx3⟩ := hcontra
    simp only [periodes, List.mem_cons, List.not_mem_nil, or_false] at hx
    interval_cases i <;>
      simp only [getPer0, getPer1, getPer2, getPer3, getPer4, getPer5, getPer6,
        getPer7, getPer8, getPer9] at hw hτ hlo <;>
      rcases hx with rfl | rfl | rfl | rfl | rfl | rfl | rfl | rfl | rfl | rfl <;>
      dsimp only at hx1 hx2 hx3 <;> omega

/- ===== work-time accounting ===== -/

lemma workTime_split (s m e : Int) (h1 : s ≤ m) (h2 : m ≤ e) :
    workTime s e = workTime s m + workTime m e := by
  unfold workTime
  have ha : (e - s).toNat = (m - s).toNat + (e - m).toNat := by omega
  rw [ha, List.range_add, List.countP_append, List.countP_map]
  congr 1
  have hfun : ((fun k : Nat => inWorkMinute (s + (k : Int))) ∘
      (fun k : Nat => (m - s).toNat + k)) = fun k : Nat => inWorkMinute (m + (k : Int)) := by
    funext k
    simp only [Function.comp_apply]
    congr 1
    push_cast
    omega
  rw [hfun]

lemma workTime_full (s e : Int)
    (hall : ∀ t : Int, s ≤ t → t < e → inWorkMinute t = true) :
    workTime s e = (e - s).toNat := by
  unfold workTime
  conv_rhs => rw [← List.length_range (e - s).toNat]
  rw [List.countP_eq_length]
  intro k hk
  rw [List.mem_range] at hk
  exact hall (s + (k : Int)) (by omega) (by omega)

lemma workTime_zero (s e : Int)
    (hnone : ∀ t : Int, s ≤ t → t < e → inWorkMinute t = false) :
    workTime s e = 0 := by
  unfold workTime
  rw [List.countP_eq_zero]
  intro k hk
  rw [List.mem_range] at hk
  rw [hnone (s + (k : Int)) (by omega) (by omega)]
  simp

lemma workTime_self (s : Int) : workTime s s = 0 := by
  simp [workTime]

/- ===== correctness of the backward walk ===== -/

lemma computeAux_nonpos (fuel : Nat) (hf : 0 < fuel) (s d : Int) (c : Nat) (hd : d ≤ 0) :
    computeAux fuel s d c = some s := by
  cases fuel with
  | zero => omega
  | succ n =>
    simp only [computeAux]
    rw [if_pos hd]

/-- Invariant-carrying correctness of the `while` loop: starting inside
period `current` with a non-negative duration and enough fuel, the loop
returns an instant inside some work period, not later than the start
instant, and the work time between the two is exactly the duration. -/
lemma computeAux_ok : ∀ (fuel : Nat) (current : Nat) (start d : Int),
    current < 10 →
    wdayOf start = (getPer current).wday →
    (getPer current).starttime ≤ timeOf start →
    timeOf start ≤ (getPer current).endtime →
    0 ≤ d →
    d.toNat + (if timeOf start = (getPer current).starttime then 1 else 0) < fuel →
    ∃ s, computeAux fuel start d current = some s ∧ s ≤ start ∧
      (∃ j, j < 10 ∧ is_in_peride (getPer j) s = true) ∧
      workTime s start = d.toNat := by
  intro fuel
  induction fuel with
  | zero =>
    intro current start d _ _ _ _ _ hf
    omega
  | succ fuel ih =>
    intro current start d hcur hw h1 h2 hd hf
    have hb := periodes_bounds current hcur
    have hds : start - daystartOf current start
        = timeOf start - (getPer current).starttime := by
      unfold daystartOf; ring
    have hfle : d.toNat < fuel + 1 := by split_ifs at hf <;> omega
    have hfstrict : timeOf start = (getPer current).starttime → d.toNat + 1 < fuel + 1 := by
      intro h
      rw [if_pos h] at hf
      exact hf
    by_cases hd0 : d ≤ 0
    · -- the loop condition `duration > 0` fails immediately
      have hdz : d = 0 := le_antisymm hd0 hd
      refine ⟨start, ?_, le_refl _, ⟨current, hcur, ?_⟩, ?_⟩
      · simp only [computeAux]
        rw [if_pos hd0]
      · simp only [is_in_peride, Bool.and_eq_true, beq_iff_eq, decide_eq_true_eq]
        exact ⟨⟨hw.symm, h1⟩, h2⟩
      · rw [workTime_self]
        omega
    · push_neg at hd0
      by_cases hfit : d < start - daystartOf current start
      · -- `remainingtime > duration`: the task fits inside the current period
        refine ⟨start - d, ?_, by omega, ⟨current, hcur, ?_⟩, ?_⟩
        · simp only [computeAux]
          rw [if_neg (by omega), if_pos hfit]
        · obtain ⟨Q, hQ, hQ1, hQ2, hQ3, hQ4⟩ := week_decomp start
          obtain ⟨R, hR, hR1, hR2, hR3, hR4⟩ := week_decomp (start - d)
          simp only [is_in_peride, Bool.and_eq_true, beq_iff_eq, decide_eq_true_eq]
          refine ⟨⟨?_, ?_⟩, ?_⟩ <;> omega
        · have hall : ∀ t : Int, start - d ≤ t → t < start → inWorkMinute t = true := by
            intro t ht1 ht2
            exact inWork_span current hcur start t hw h1 h2 (by omega) ht2
          rw [workTime_full _ _ hall]
          omega
      · have hrem_le : start - daystartOf current start ≤ d := not_lt.mp hfit
        have hwd_ds : wdayOf (daystartOf current start) = (getPer current).wday ∧
            timeOf (daystartOf current start) = (getPer current).starttime := by
          obtain ⟨Q, hQ, hQ1, hQ2, hQ3, hQ4⟩ := week_decomp start
          obtain ⟨R, hR, hR1, hR2, hR3, hR4⟩ := week_decomp (daystartOf current start)
          have hexp : daystartOf current start
              = start - timeOf start + (getPer current).starttime := rfl
          constructor <;> omega
        by_cases hdzero : d - (start - daystartOf current start) = 0
        · -- the walk stops exactly at the period's start instant
          have hf1 : (0:Nat) < fuel := by omega
          refine ⟨daystartOf current start, ?_, by omega, ⟨current, hcur, ?_⟩, ?_⟩
          · simp only [computeAux]
            rw [if_neg (by omega), if_neg hfit, if_pos hdzero]
            rw [show start - (start - daystartOf current start) = daystartOf current start
              from by ring]
            rw [hdzero]
            exact computeAux_nonpos fuel hf1 _ 0 _ (le_refl 0)
          · simp only [is_in_peride, Bool.and_eq_true, beq_iff_eq, decide_eq_true_eq]
            refine ⟨⟨hwd_ds.1.symm, ?_⟩, ?_⟩ <;> rw [hwd_ds.2] <;> omega
          · have hall : ∀ t : Int, daystartOf current start ≤ t → t < start →
                inWorkMinute t = true := by
              intro t ht1 ht2
              exact inWork_span current hcur start t hw h1 h2 (by omega) ht2
            rw [workTime_full _ _ hall]
            omega
        · -- cross the gap to the previous period in cycle order
          obtain ⟨⟨hst1, hst2⟩, hgap⟩ :=
            step_target current hcur (daystartOf current start) hwd_ds.1 hwd_ds.2
          have hcur' : (current + 9) % 10 < 10 := Nat.mod_lt _ (by norm_num)
          have hbq := periodes_bounds ((current + 9) % 10) hcur'
          have hcases : timeOf start = (getPer current).starttime ∨
              1 ≤ start - daystartOf current start := by omega
          have hfgoal : (d - (start - daystartOf current start)).toNat < fuel := by
            rcases hcases with hc | hc
            · have := hfstrict hc
              omega
            · omega
          have hih := ih ((current + 9) % 10)
            (daystartOf current start - (getPer current).dt_prev)
            (d - (start - daystartOf current start)) hcur' hst1
            (by omega) (by omega) (by omega)
            (by rw [if_neg (show ¬ _ from by omega)]; omega)
          obtain ⟨s, hs_eq, hs_le, hs_in, hs_wt⟩ := hih
          refine ⟨s, ?_, by omega, hs_in, ?_⟩
          · simp only [computeAux]
            rw [if_neg (by omega), if_neg hfit, if_neg hdzero]
            rw [show start - (start - daystartOf current start) - (getPer current).dt_prev
                = daystartOf current start - (getPer current).dt_prev from by ring]
            exact hs_eq
          · have hsp1 : workTime s start =
                workTime s (daystartOf current start - (getPer current).dt_prev) +
                workTime (daystartOf current start - (getPer current).dt_prev) start :=
              workTime_split _ _ _ hs_le (by omega)
            have hsp2 : workTime (daystartOf current start - (getPer current).dt_prev) start =
                workTime (daystartOf current start - (getPer current).dt_prev)
                  (daystartOf current start) +
                workTime (daystartOf current start) start :=
              workTime_split _ _ _ (by omega) (by omega)
            have hg0 : workTime (daystartOf current start - (getPer current).dt_prev)
                (daystartOf current start) = 0 :=
              workTime_zero _ _ fun t ht1 ht2 => hgap t ht1 ht2
            have hfull : workTime (daystartOf current start) start
                = (start - daystartOf current start).toNat := by
              apply workTime_full
              intro t ht1 ht2
              exact inWork_span current hcur start t hw h1 h2 (by omega) ht2
            omega

lemma locate_some (t : Int) (j : Nat) (hj : locate t = some j) :
    j < 10 ∧ is_in_peride (getPer j) t = true := by
  unfold locate at hj
  constructor
  · have := List.mem_of_find?_eq_some hj
    simpa [List.mem_range] using this
  · have := List.find?_some hj
    simpa using this

lemma locate_isSome (t : Int) (i : Nat) (hi : i < 10)
    (hp : is_in_peride (getPer i) t = true) : ∃ j, locate t = some j := by
  unfold locate
  have : ((List.range 10).find? fun k => is_in_peride (getPer k) t).isSome :=
    List.find?_isSome.2 ⟨i, List.mem_range.2 hi, hp⟩
  exact Option.isSome_iff_exists.1 this

/-- Claim C2: for every end instant lying inside some work period and
every non-negative duration (whole minutes), `Calendar.compute_startdate`
succeeds and returns a start instant that lies inside some work period,
not later than the end, and the work time elapsed between start and end
(counting only minutes inside the configured work periods) equals the
duration exactly; in particular with duration 0 it returns the end
instant itself. -/
theorem compute_startdate_correct (e d : Int) (hd : 0 ≤ d)
    (he : ∃ i, i < 10 ∧ is_in_peride (getPer i) e = true) :
    ∃ s, compute_startdate e d = some s ∧ s ≤ e ∧
      (∃ j, j < 10 ∧ is_in_peride (getPer j) s = true) ∧
      workTime s e = d.toNat ∧ (d = 0 → s = e) := by
  obtain ⟨i, hi, hip⟩ := he
  obtain ⟨j, hj⟩ := locate_isSome e i hi hip
  obtain ⟨hj10, hjp⟩ := locate_some e j hj
  have h3 : (getPer j).wday = wdayOf e ∧ (getPer j).starttime ≤ timeOf e ∧
      timeOf e ≤ (getPer j).endtime := by
    simpa [is_in_peride, Bool.and_eq_true, beq_iff_eq, decide_eq_true_eq,
      and_assoc] using hjp
  obtain ⟨hw, h1, h2⟩ := h3
  have hfuel : d.toNat + (if timeOf e = (getPer j).starttime then 1 else 0)
      < d.toNat + 2 := by
    split_ifs <;> omega
  obtain ⟨s, hs, hsle, hsin, hwt⟩ :=
    computeAux_ok (d.toNat + 2) j e d hj10 hw.symm h1 h2 hd hfuel
  refine ⟨s, ?_, hsle, hsin, hwt, ?_⟩
  · unfold compute_startdate
    rw [hj]
    exact hs
  · intro hd0
    subst hd0
    have h0 : computeAux ((0:Int).toNat + 2) e 0 j = some e :=
      computeAux_nonpos _ (by omega) _ _ _ (le_refl 0)
    rw [h0] at hs
    exact (Option.some.inj hs).symm

/-- Witness for C2 at `end` = Monday 12:00 and a 4-hour duration. -/
theorem compute_startdate_correct_witness :
    (0:Int) ≤ 240 ∧ (∃ i, i < 10 ∧ is_in_peride (getPer i) (720:Int) = true) ∧
    ∃ s, compute_startdate 720 240 = some s ∧ s ≤ 720 ∧
      (∃ j, j < 10 ∧ is_in_peride (getPer j) s = true) ∧
      workTime s 720 = (240:Int).toNat ∧ ((240:Int) = 0 → s = 720) :=
  ⟨by decide, ⟨0, by decide⟩,
    compute_startdate_correct 720 240 (by decide) ⟨0, by decide⟩⟩

/- ===== placement pass ===== -/

lemma placeRev_map_core : ∀ (ts : List PTask) (st : Int) (m : List PTask),
    placeRev ts st = some m →
    m.map core = (ts.filter fun t => t.deadLine != datetimeMax).map core := by
  intro ts
  induction ts with
  | nil =>
    intro st m hm
    simp only [placeRev, Option.some.injEq] at hm
    subst hm
    rfl
  | cons t rest ih =>
    intro st m hm
    simp only [placeRev] at hm
    by_cases h : t.deadLine = datetimeMax
    · rw [if_pos h] at hm
      rw [List.filter_cons, if_neg (by simp [h])]
      exact ih st m hm
    · rw [if_neg h] at hm
      cases hcs : compute_startdate (min t.deadLine st) t.lastingTime with
      | none =>
        simp only [hcs] at hm
        exact Option.noConfusion hm
      | some s =>
        simp only [hcs] at hm
        cases hpr : placeRev rest s with
        | none =>
          simp only [hpr] at hm
          exact Option.noConfusion hm
        | some l =>
          simp only [hpr, Option.some.injEq] at hm
          subst hm
          have hbne : (t.deadLine != datetimeMax) = true := by simpa using h
          have htail := ih s l hpr
          rw [List.filter_cons, if_pos hbne]
          simp [core, htail]

/-- Claim C1 (amended): `Planning.render_planning` builds its scheduling
chain from the tasks across all domains that have a real deadline only
(tasks whose deadline equals the far-future sentinel are excluded),
ordered by the deadline-first policy; the `Holidays` held by the scheduler
are never consulted and never appear in the placed chain. -/
theorem render_planning_tasks_only (p : Planning PTask) :
    render_planning_chain p = render_planning_chain ⟨p.tasks, []⟩ ∧
    ∀ l, render_planning_chain p = some l →
      l.map core = ((full_list p).filter fun t => t.deadLine != datetimeMax).map core := by
  constructor
  · rfl
  · intro l hl
    unfold render_planning_chain at hl
    cases hm : placeRev (full_list p).reverse datetimeMax with
    | none =>
      simp only [hm] at hl
      exact Option.noConfusion hl
    | some m =>
      simp only [hm, Option.some.injEq] at hl
      subst hl
      have h1 := placeRev_map_core _ _ _ hm
      rw [List.map_reverse, h1, List.filter_reverse, List.map_reverse,
        List.reverse_reverse]

/-- Counterexample to C1 as stated: a scheduler holding one `Holidays`
whose placement pass succeeds with an empty chain, so the reserved
interval does not appear in the placed chain. -/
theorem render_planning_holidays_cex :
    planH.holidays = [holidayV] ∧ render_planning_chain planH = some [] :=
  ⟨rfl, rfl⟩

/-- Witness for C1's amended theorem on a scheduler holding one task and
one holiday. -/
theorem render_planning_tasks_only_witness :
    render_planning_chain planV = some [⟨"V", 1080, 30, 0, 1050, 1080, true⟩] ∧
    ([(⟨"V", 1080, 30, 0, 1050, 1080, true⟩ : PTask)]).map core =
      ((full_list planV).filter fun t => t.deadLine != datetimeMax).map core ∧
    render_planning_chain planV = render_planning_chain ⟨planV.tasks, []⟩ :=
  ⟨rfl, (render_planning_tasks_only planV).2 _ rfl,
    (render_planning_tasks_only planV).1⟩

lemma placeRev_inv : ∀ (ts : List PTask) (st : Int) (m : List PTask),
    placeRev ts st = some m →
    (∀ x ∈ m, x.enddate ≤ x.deadLine) ∧
    List.Chain' (fun a b => b.enddate ≤ a.startdate) m ∧
    (∀ h, m.head? = some h → h.enddate ≤ st) := by
  intro ts
  induction ts with
  | nil =>
    intro st m hm
    simp only [placeRev, Option.some.injEq] at hm
    subst hm
    refine ⟨by simp, by simp, ?_⟩
    intro h hh
    exact Option.noConfusion hh
  | cons t rest ih =>
    intro st m hm
    simp only [placeRev] at hm
    by_cases h : t.deadLine = datetimeMax
    · rw [if_pos h] at hm
      exact ih st m hm
    · rw [if_neg h] at hm
      cases hcs : compute_startdate (min t.deadLine st) t.lastingTime with
      | none =>
        simp only [hcs] at hm
        exact Option.noConfusion hm
      | some s =>
        simp only [hcs] at hm
        cases hpr : placeRev rest s with
        | none =>
          simp only [hpr] at hm
          exact Option.noConfusion hm
        | some l =>
          simp only [hpr, Option.some.injEq] at hm
          subst hm
          obtain ⟨ih1, ih2, ih3⟩ := ih s l hpr
          refine ⟨?_, ?_, ?_⟩
          · intro x hx
            rcases List.mem_cons.1 hx with rfl | hx2
            · exact min_le_left _ _
            · exact ih1 x hx2
          · rw [List.chain'_cons']
            refine ⟨?_, ih2⟩
            intro y hy
            exact ih3 y hy
          · intro hh hhead
            have hh2 := Option.some.inj hhead
            subst hh2
            exact min_le_right _ _

/-- Claim C4: after a successful placement pass, for every adjacent pair
(earlier, later) of the output chain in forward order,
`earlier.enddate ≤ later.startdate` and `earlier.enddate ≤ earlier.deadLine`. -/
theorem placement_ordering_invariant (p : Planning PTask) (l : List PTask)
    (h : render_planning_chain p = some l) :
    List.Chain' (fun a b => a.enddate ≤ b.startdate) l ∧
    ∀ x ∈ l, x.enddate ≤ x.deadLine := by
  unfold render_planning_chain at h
  cases hm : placeRev (full_list p).reverse datetimeMax with
  | none =>
    simp only [hm] at h
    exact Option.noConfusion h
  | some m =>
    simp only [hm, Option.some.injEq] at h
    subst h
    obtain ⟨h1, hc, _⟩ := placeRev_inv _ _ _ hm
    constructor
    · exact List.chain'_reverse.2 hc
    · intro x hx
      exact h1 x (List.mem_reverse.1 hx)

/-- Witness for C4 on a one-task scheduler whose placement succeeds. -/
theorem placement_ordering_invariant_witness :
    render_planning_chain planW = some [⟨"W", 720, 60, 0, 660, 720, true⟩] ∧
    (List.Chain' (fun a b => a.enddate ≤ b.startdate)
        [(⟨"W", 720, 60, 0, 660, 720, true⟩ : PTask)] ∧
      ∀ x ∈ [(⟨"W", 720, 60, 0, 660, 720, true⟩ : PTask)],
        x.enddate ≤ x.deadLine) :=
  ⟨rfl, placement_ordering_invariant planW _ rfl⟩

/- ===== greedy same-day selection ===== -/

lemma selectShort_spec : ∀ (l : List PTask) (tot cap : ℚ),
    selectShort l tot cap = l.take (selectShort l tot cap).length ∧
    (cap ≤ tot + sumHours (selectShort l tot cap) ∨ selectShort l tot cap = l) ∧
    ∀ n, n < (selectShort l tot cap).length → tot + sumHours (l.take n) < cap := by
  intro l
  induction l with
  | nil =>
    intro tot cap
    refine ⟨rfl, Or.inr rfl, ?_⟩
    intro n hn
    simp [selectShort] at hn
  | cons t rest ih =>
    intro tot cap
    by_cases htc : tot < cap
    · have hsel : selectShort (t :: rest) tot cap
          = t :: selectShort rest (tot + hoursOf t) cap := by
        rw [selectShort, if_pos htc]
      obtain ⟨ih1, ih2, ih3⟩ := ih (tot + hoursOf t) cap
      refine ⟨?_, ?_, ?_⟩
      · rw [hsel, List.length_cons, List.take_succ_cons]
        exact congrArg (List.cons t) ih1
      · rcases ih2 with h2 | h2
        · left
          rw [hsel]
          simp only [sumHours, List.map_cons, List.sum_cons]
          simp only [sumHours] at h2
          linarith
        · right
          rw [hsel, h2]
      · intro n hn
        rw [hsel, List.length_cons] at hn
        cases n with
        | zero =>
          simpa [sumHours] using htc
        | succ k =>
          have hk := ih3 k (by omega)
          rw [List.take_succ_cons]
          simp only [sumHours, List.map_cons, List.sum_cons]
          simp only [sumHours] at hk
          linarith
    · have hsel : selectShort (t :: rest) tot cap = [] := by
        rw [selectShort, if_neg htc]
      refine ⟨by rw [hsel]; rfl, ?_, ?_⟩
      · left
        rw [hsel]
        simp only [sumHours, List.map_nil, List.sum_nil, add_zero]
        exact not_lt.1 htc
      · intro n hn
        rw [hsel] at hn
        simp at hn

/-- Claim C5: the greedy loop at the end of `Planning.sort_priority`
selects a prefix of the ordered input whose summed remaining-duration
hours first reaches the capacity: the selection is a prefix, its sum
reaches the capacity unless the whole list was consumed, every strictly
shorter prefix sums below the capacity, and when the total (with
non-negative durations) is below the capacity the whole list is
selected. -/
theorem short_list_greedy (l : List PTask) (cap : ℚ) :
    short_list l cap = l.take (short_list l cap).length ∧
    (cap ≤ sumHours (short_list l cap) ∨ short_list l cap = l) ∧
    (∀ n, n < (short_list l cap).length → sumHours (l.take n) < cap) ∧
    ((∀ x ∈ l, 0 ≤ hoursOf x) → sumHours l < cap → short_list l cap = l) := by
  obtain ⟨h1, h2, h3⟩ := selectShort_spec l 0 cap
  simp only [zero_add] at h2 h3
  unfold short_list
  refine ⟨h1, h2, h3, ?_⟩
  intro hnn htot
  rcases h2 with h | h
  · exfalso
    have hsplit : sumHours (l.take (selectShort l 0 cap).length) +
        sumHours (l.drop (selectShort l 0 cap).length) = sumHours l := by
      unfold sumHours
      rw [← List.sum_append, ← List.map_append, List.take_append_drop]
    have hdrop : 0 ≤ sumHours (l.drop (selectShort l 0 cap).length) := by
      apply List.sum_nonneg
      intro y hy
      obtain ⟨x, hx, rfl⟩ := List.mem_map.1 hy
      exact hnn x (List.drop_subset _ _ hx)
    have hpre : sumHours (selectShort l 0 cap) ≤ sumHours l := by
      rw [h1]
      linarith
    linarith
  · exact h

/-- Witness for C5: three tasks of 1, 2 and 5 remaining hours against a
capacity of 100 hours; the whole list is selected and the empty strict
prefix stays below the capacity. -/
theorem short_list_greedy_witness :
    (∀ x ∈ wlist5, 0 ≤ hoursOf x) ∧ sumHours wlist5 < 100 ∧
    short_list wlist5 100 = wlist5 ∧ 0 < (short_list wlist5 100).length ∧
    sumHours (wlist5.take 0) < 100 := by
  have h1 : ∀ x ∈ wlist5, 0 ≤ hoursOf x := by
    intro x hx
    simp only [wlist5, List.mem_cons, List.not_mem_nil, or_false] at hx
    rcases hx with rfl | rfl | rfl <;> norm_num [hoursOf, taskC5a, taskC5b, taskC5c]
  have h2 : sumHours wlist5 < 100 := by
    norm_num [sumHours, wlist5, hoursOf, taskC5a, taskC5b, taskC5c]
  have h3 := (short_list_greedy wlist5 100).2.2.2 h1 h2
  have h4 : 0 < (short_list wlist5 100).length := by
    rw [h3]
    norm_num [wlist5]
  exact ⟨h1, h2, h3, h4, (short_list_greedy wlist5 100).2.2.1 0 h4⟩

/- ===== priority regimes ===== -/

lemma updatePriorityQ_pos (T D : ℚ) (hT : 0 < T) :
    updatePriorityQ T D = some (D / T) := by
  unfold updatePriorityQ
  split_ifs with h1 h2 h3 h4
  · exact absurd h2 (ne_of_gt hT)
  · rfl
  · rfl
  · exfalso
    apply h1
    rw [h4]
    exact hT.le
  · exact absurd ⟨hT, not_le.1 h1⟩ h3

lemma updatePriorityQ_overdue (T D : ℚ) (hT : T ≤ 0) (hD : 0 < D) :
    updatePriorityQ T D = some ((D - T) / D) := by
  unfold updatePriorityQ
  split_ifs with h1 h2 h3 h4
  · linarith
  · linarith
  · exact absurd h3.1 (not_lt.2 hT)
  · exact absurd h4 (ne_of_gt hD)
  · rfl

/-- Claim C6 (amended): with the deadline fixed and `0 < T`, decreasing
the remaining duration in the slack regime (`D ≤ T`) never increases the
priority; with the remaining duration fixed and positive, the priority is
strictly decreasing in `T` separately on `T > 0` (approaching the
deadline) and on `T ≤ 0` (past the deadline) — but not across the `T = 0`
boundary, where the priority drops from `D/T` (arbitrarily large) to
`(D - T)/D` (near 1). -/
theorem priority_monotone_regimes :
    (∀ T D D2 : ℚ, 0 < T → D2 ≤ D → D ≤ T →
      ∃ p p2, updatePriorityQ T D = some p ∧ updatePriorityQ T D2 = some p2 ∧
        p2 ≤ p) ∧
    (∀ D T1 T2 : ℚ, 0 < D → 0 < T1 → T1 < T2 →
      ∃ p1 p2, updatePriorityQ T1 D = some p1 ∧ updatePriorityQ T2 D = some p2 ∧
        p2 < p1) ∧
    (∀ D T1 T2 : ℚ, 0 < D → T1 < T2 → T2 ≤ 0 →
      ∃ p1 p2, updatePriorityQ T1 D = some p1 ∧ updatePriorityQ T2 D = some p2 ∧
        p2 < p1) := by
  refine ⟨?_, ?_, ?_⟩
  · intro T D D2 hT hDD hDT
    refine ⟨D / T, D2 / T, updatePriorityQ_pos T D hT, updatePriorityQ_pos T D2 hT, ?_⟩
    gcongr
  · intro D T1 T2 hD hT1 hT12
    refine ⟨D / T1, D / T2, updatePriorityQ_pos T1 D hT1,
      updatePriorityQ_pos T2 D (lt_trans hT1 hT12), ?_⟩
    exact div_lt_div_of_pos_left hD hT1 hT12
  · intro D T1 T2 hD hT12 hT2
    refine ⟨(D - T1) / D, (D - T2) / D,
      updatePriorityQ_overdue T1 D (by linarith) hD,
      updatePriorityQ_overdue T2 D hT2 hD, ?_⟩
    apply div_lt_div_of_pos_right ?_ hD
    linarith

/-- Counterexample to C6 as stated: with `D = 2` fixed, moving "now"
forward (from `T = 1` to `T = 0`, i.e. onto the deadline) *decreases* the
priority from 2 to 1, so the priority is not strictly increasing as "now"
moves toward and past the deadline over the whole signed range of `T`. -/
theorem priority_not_monotone_at_deadline_cex :
    updatePriorityQ 0 2 = some 1 ∧ updatePriorityQ 1 2 = some 2 ∧
    ((0:ℚ) < 1) ∧ ((1:ℚ) < 2) := by
  refine ⟨?_, ?_, by norm_num, by norm_num⟩ <;> norm_num [updatePriorityQ]

/-- Witness for C6's amended theorem at concrete regime points. -/
theorem priority_monotone_regimes_witness :
    (∃ p p2, updatePriorityQ 4 2 = some p ∧ updatePriorityQ 4 1 = some p2 ∧
      p2 ≤ p) ∧
    (∃ p1 p2, updatePriorityQ 1 3 = some p1 ∧ updatePriorityQ 2 3 = some p2 ∧
      p2 < p1) ∧
    (∃ p1 p2, updatePriorityQ (-2) 5 = some p1 ∧ updatePriorityQ (-1) 5 = some p2 ∧
      p2 < p1) :=
  ⟨priority_monotone_regimes.1 4 2 1 (by norm_num) (by norm_num) (by norm_num),
   priority_monotone_regimes.2.1 3 1 2 (by norm_num) (by norm_num) (by norm_num),
   priority_monotone_regimes.2.2 5 (-2) (-1) (by norm_num) (by norm_num) (by norm_num)⟩

/- ===== the single Task ordering ===== -/

lemma taskLt_asymm (a b : PTask) (h : taskLt a b) : ¬ taskLt b a := by
  intro h2
  unfold taskLt at h h2
  by_cases hd : a.deadLine = b.deadLine
  · rw [if_pos hd] at h
    rw [if_pos hd.symm] at h2
    by_cases hp : a.priority = b.priority
    · rw [if_pos hp] at h
      rw [if_pos hp.symm] at h2
      exact lt_asymm h h2
    · rw [if_neg hp] at h
      rw [if_neg (Ne.symm hp)] at h2
      exact lt_asymm h h2
  · rw [if_neg hd] at h
    rw [if_neg (Ne.symm hd)] at h2
    omega

lemma taskLt_step (a b c : PTask) (h : taskLt c a) : taskLt c b ∨ taskLt b a := by
  unfold taskLt at h ⊢
  by_cases hca : c.deadLine = a.deadLine
  · rw [if_pos hca] at h
    by_cases hcb : c.deadLine = b.deadLine
    · have hba : b.deadLine = a.deadLine := by omega
      rw [if_pos hcb, if_pos hba]
      by_cases hcpa : c.priority = a.priority
      · rw [if_pos hcpa] at h
        by_cases hcpb : c.priority = b.priority
        · have hbpa : b.priority = a.priority := by rw [← hcpb, hcpa]
          rw [if_pos hcpb, if_pos hbpa]
          by_cases ht : c.title < b.title
          · exact Or.inl ht
          · exact Or.inr (lt_of_le_of_lt (not_lt.1 ht) h)
        · rw [if_neg hcpb]
          by_cases hpb : b.priority < c.priority
          · exact Or.inl hpb
          · right
            have hbpa_ne : ¬ b.priority = a.priority := by
              intro he
              exact hcpb (by rw [hcpa, he])
            rw [if_neg hbpa_ne, ← hcpa]
            exact lt_of_le_of_ne (not_lt.1 hpb) hcpb
      · rw [if_neg hcpa] at h
        by_cases hcpb : c.priority = b.priority
        · right
          have hbpa_ne : ¬ b.priority = a.priority := by
            intro he
            exact hcpa (by rw [hcpb, he])
          rw [if_neg hbpa_ne, ← hcpb]
          exact h
        · by_cases hpb : b.priority < c.priority
          · exact Or.inl (by rw [if_neg hcpb]; exact hpb)
          · right
            have hcb2 : c.priority < b.priority := lt_of_le_of_ne (not_lt.1 hpb) hcpb
            have hbpa_ne : ¬ b.priority = a.priority := by
              intro he
              rw [he] at hcb2
              exact absurd h (lt_asymm hcb2)
            rw [if_neg hbpa_ne]
            exact lt_trans h hcb2
    · by_cases hlt : c.deadLine < b.deadLine
      · exact Or.inl (by rw [if_neg hcb]; exact hlt)
      · right
        rw [if_neg (show ¬ b.deadLine = a.deadLine by omega)]
        omega
  · rw [if_neg hca] at h
    by_cases hcb : c.deadLine = b.deadLine
    · right
      rw [if_neg (show ¬ b.deadLine = a.deadLine by omega)]
      omega
    · by_cases hlt : c.deadLine < b.deadLine
      · exact Or.inl (by rw [if_neg hcb]; exact hlt)
      · right
        rw [if_neg (show ¬ b.deadLine = a.deadLine by omega)]
        omega

/-- Claim C7 (amended): `Planning.sort_priority` orders tasks by the
single `Task.__lt__` comparison: deadline first (earlier deadline first),
tiebroken by priority descending, then by title; priority alone is not
the sort key.  The report list is sorted with respect to that relation. -/
theorem sort_priority_deadline_first (p : Planning PTask) :
    List.Sorted taskLe (sort_priority_list p) := by
  haveI : IsTotal PTask taskLe := ⟨fun a b => by
    by_cases h : taskLt b a
    · exact Or.inr (taskLt_asymm b a h)
    · exact Or.inl h⟩
  haveI : IsTrans PTask taskLe := ⟨fun a b c hab hbc hca =>
    (taskLt_step a b c hca).elim hbc hab⟩
  unfold sort_priority_list sortTasks
  exact List.sorted_insertionSort taskLe _

/-- Counterexample to C7 as stated: `taskA` has the strictly higher
priority but the later deadline, and the report list places it second —
the ordering is not priority-first. -/
theorem sort_priority_not_priority_first_cex :
    sort_priority_list planAB = [taskB, taskA] ∧ taskB.priority < taskA.priority := by
  refine ⟨rfl, ?_⟩
  norm_num [taskA, taskB]

/- ===== degenerate priority, holidays, update-by-name, percent frame ===== -/

/-- Claim C3 is a code bug: `Task.updatePriority` raises
`ZeroDivisionError` in the degenerate cases instead of resolving them to a
sentinel: with `T = 0` and `D = 0` the first branch computes `0/0`, and
with `T < 0`, `D = 0` the overdue branch divides by `D = 0`. -/
theorem updatePriority_zero_division :
    updatePriorityT taskC3 100 = none ∧
    updatePriorityT { taskC3 with deadLine := 40 } 100 = none := by
  constructor <;> norm_num [updatePriorityT, updatePriorityQ, taskC3]

/-- Claim C8 is a code bug: `Planning.addHolidays` ignores the caller's
start/end designators (it passes the literal defaults to `Holidays`), and
`Holidays.__init__` always raises `AttributeError` on
`cal.periodes.starttime`, so every call fails and appends nothing —
regardless of all arguments. -/
theorem addHolidays_always_fails (α : Type) (p : Planning α) (title : String)
    (startday : Int) (starttime : String) (endday : Int) (endtime : String) :
    addHolidays p title startday starttime endday endtime
      = Except.error "AttributeError" := rfl

/-- Claim C9 is a code bug: updating a task name that is not present in
the domain's list is not a reported no-op — after printing the message the
code still calls `list.index(taskname)`, which raises `ValueError`, so the
exception escapes (`none`). -/
theorem updateTask_missing_raises :
    updateTask planC9 "ghost" "work" 50 0 = none := rfl

/-- Claim C10: for a valid percentage, `Task.updatePercent` modifies only
`percentDone`, `lastingTime` and `priority`; the other eight attributes
are unchanged. -/
theorem updatePercent_frame (t : Task) (now : Int) (pc : ℚ) (t2 : Task)
    (h0 : 0 ≤ pc) (h100 : pc ≤ 100) (h : updatePercent t now pc = some t2) :
    t2.title = t.title ∧ t2.description = t.description ∧ t2.domain = t.domain ∧
    t2.deadLine = t.deadLine ∧ t2.estimatedLength = t.estimatedLength ∧
    t2.startdate = t.startdate ∧ t2.enddate = t.enddate ∧ t2.pause = t.pause := by
  unfold updatePercent at h
  rw [if_neg (not_not_intro ⟨h0, h100⟩)] at h
  unfold updatePriorityT at h
  cases hq : updatePriorityQ
      (((updateLastingTime { t with percentDone := pc }).deadLine - now : Int) : ℚ)
      (updateLastingTime { t with percentDone := pc }).lastingTime with
  | none =>
    rw [hq] at h
    exact Option.noConfusion h
  | some P =>
    rw [hq] at h
    have h2 := Option.some.inj h
    subst h2
    exact ⟨rfl, rfl, rfl, rfl, rfl, rfl, rfl, rfl⟩

/-- Witness for C10 at a concrete task and a 50% update. -/
theorem updatePercent_frame_witness :
    ∃ t2, updatePercent taskC10 0 50 = some t2 ∧
      t2.title = taskC10.title ∧ t2.pause = taskC10.pause := by
  have h : updatePercent taskC10 0 50
      = some ⟨"w10", "", none, 1000, 120, 50, 60, 3/50, 0, 1000, false⟩ := by
    norm_num [updatePercent, updatePriorityT, updateLastingTime, updatePriorityQ, taskC10]
  refine ⟨_, h, ?_, ?_⟩
  · exact (updatePercent_frame taskC10 0 50 _ (by norm_num) (by norm_num) h).1
  · exact (updatePercent_frame taskC10 0 50 _ (by norm_num) (by norm_num) h).2.2.2.2.2.2.2

end EmergencyPlanner
